import Mathlib

/-!
Verification of `src/ds/BinarySearchTree.js` (the `BSTNode` and
`BinarySearchTree` classes).

Two embeddings of the same source file are developed.

1. `Heap`: a direct, JS-level embedding.  JavaScript objects live on an
   explicit heap (a list of records), references are indices, and every
   field read/write of the source is mirrored, including the transient
   placeholder parent object `{left: this.root}` that `remove` installs
   when the removed node is the root, and JavaScript's `undefined` for
   reads of missing fields.  Recursion is fuel-bounded (fuel
   `heap.length + 1` dominates the node count, hence every traversal
   depth, on every state the library itself can build).

2. `Model`: a state-passing functional embedding.  Nodes form an
   inductive tree (`left`/`right` links only); the `parent` back-pointers
   of the source are represented implicitly by the path from the root.
   This is faithful on every state reachable through the public API
   because the source keeps every live non-root node's `parent` exactly
   equal to its structural parent (insertion attaches with the correct
   parent; both removal cases re-point the moved child's `parent`), with
   a single exception: after a removal whose target was the root, the
   root's `parent` is the leftover placeholder object `, left: root`
   rather than `null`.  That one deviation is tracked by the boolean
   `phantomRoot` field of `Model.TreeState`, and the two places where the
   source ever follows a root's `parent` pointer (the upward walks of
   `getPredecessor`/`getSuccessor`) are rendered accordingly: the
   predecessor walk steps into the placeholder (its `left` equals the
   root) and then stops with no parent, returning `null` exactly as in
   the `parent = null` case, while the successor walk stops at the root
   (the placeholder has no `right`) and returns the placeholder's missing
   `value`, i.e. `undefined`, instead of `null`.
-/

/-- JavaScript values as far as this source file needs them: `null`,
`undefined`, numbers (the element values; modelled as `Int`), and object
references (indices into an explicit heap). -/
inductive JSVal where
  | null : JSVal
  | undef : JSVal
  | num : Int → JSVal
  | ref : Nat → JSVal
deriving DecidableEq, Repr

/-- Truthiness of the values that the source ever tests with `!x`,
`x ? _ : _`, `x && _` or `if (x)`: those are always node/object
references (`null`/`undefined` are falsy, objects are truthy). -/
def JSVal.isRef : JSVal → Bool
  | JSVal.ref _ => true
  | _ => false

/-- The default comparison function of the constructor,
`(a, b) => a < b`, applied to numbers; comparisons involving
`null`/`undefined`/objects are irrelevant to the source (node values are
the numbers the caller inserted), and `<` on anything non-numeric here
yields `false`. -/
def jsLt : JSVal → JSVal → Bool
  | JSVal.num a, JSVal.num b => decide (a < b)
  | _, _ => false

namespace Heap

/-- A heap object: either a `BSTNode` (fields `value`, `parent`, `left`,
`right`, exactly the constructor of the source) or the placeholder
`, left: this.root` allocated by `remove`, whose missing fields read as
`undefined`. -/
structure Obj where
  value : JSVal
  parent : JSVal
  left : JSVal
  right : JSVal
deriving DecidableEq, Repr

/-- The object every out-of-heap read falls back to; never reached on
states built by the API (all stored references are live indices). -/
def nullObj : Obj := ⟨JSVal.undef, JSVal.undef, JSVal.undef, JSVal.undef⟩

/-- The `BinarySearchTree` instance: its heap of allocated objects, its
`root` reference and its `length` counter.  The comparison function is
the constructor default `(a, b) => a < b` (`jsLt`). -/
structure BST where
  heap : List Obj
  root : JSVal
  length : Int
deriving DecidableEq, Repr

/-- `new BinarySearchTree()`: `root = null`, `length = 0`. -/
def emptyBST : BST := ⟨[], JSVal.null, 0⟩

/-- Dereference a heap pointer (a field read `r.field` goes through
this). -/
def getObj (s : BST) (r : JSVal) : Obj :=
  match r with
  | JSVal.ref i => s.heap.getD i nullObj
  | _ => nullObj

/-- The index of a reference (0 as an irrelevant fallback). -/
def refIdx : JSVal → Nat
  | JSVal.ref i => i
  | _ => 0

/-- Overwrite the object at index `i`. -/
def setObj (s : BST) (i : Nat) (o : Obj) : BST :=
  { s with heap := s.heap.set i o }

/-- `BSTNode.getLeftmostDescendant`:
`return this.left ? this.left.getLeftmostDescendant() : this`. -/
def getLeftmostDescendant (s : BST) : Nat → JSVal → JSVal
  | 0, r => r
  | fuel + 1, r =>
    let o := getObj s r
    if o.left.isRef then getLeftmostDescendant s fuel o.left else r

/-- `BSTNode.getRightmostDescendant`. -/
def getRightmostDescendant (s : BST) : Nat → JSVal → JSVal
  | 0, r => r
  | fuel + 1, r =>
    let o := getObj s r
    if o.right.isRef then getRightmostDescendant s fuel o.right else r

/-- `BinarySearchTree.search(value, node = this.root)`.  Returns the
found node, or whatever falsy value (`null`) the descent ran into. -/
def searchGo (s : BST) (v : Int) : Nat → JSVal → JSVal
  | 0, nodeRef => nodeRef
  | fuel + 1, nodeRef =>
    if nodeRef.isRef = false then nodeRef
    else
      let o := getObj s nodeRef
      if o.value = JSVal.num v then nodeRef
      else if jsLt (JSVal.num v) o.value then searchGo s v fuel o.left
      else searchGo s v fuel o.right

def search (s : BST) (v : Int) : JSVal :=
  searchGo s v (s.heap.length + 1) s.root

/-- `BinarySearchTree.insert(value, parent = this.root)`.  Returns the
pair (JS return value, new state).  Note the source's recursive calls
`this.insert(value, parent.left)` / `this.insert(value, parent.right)`
discard the inner return value and fall off the end of the function, so
the outer call returns `undefined` whenever the new node is attached
deeper than one level below the given parent. -/
def insertGo (s : BST) (v : Int) : Nat → JSVal → JSVal × BST
  | 0, _ => (JSVal.undef, s)
  | fuel + 1, parentRef =>
    if s.root.isRef = false then
      let n := s.heap.length
      let s2 : BST :=
        { heap := s.heap ++ [⟨JSVal.num v, JSVal.null, JSVal.null, JSVal.null⟩],
          root := JSVal.ref n, length := s.length + 1 }
      (JSVal.num (s.length + 1), s2)
    else
      let p := getObj s parentRef
      if jsLt (JSVal.num v) p.value then
        if p.left = JSVal.null then
          let n := s.heap.length
          let h2 := (s.heap ++ [(⟨JSVal.num v, parentRef, JSVal.null, JSVal.null⟩ : Obj)]).set
            (refIdx parentRef) { p with left := JSVal.ref n }
          (JSVal.num (s.length + 1),
            { heap := h2, root := s.root, length := s.length + 1 })
        else
          let r := insertGo s v fuel p.left
          (JSVal.undef, r.2)
      else
        if p.right = JSVal.null then
          let n := s.heap.length
          let h2 := (s.heap ++ [(⟨JSVal.num v, parentRef, JSVal.null, JSVal.null⟩ : Obj)]).set
            (refIdx parentRef) { p with right := JSVal.ref n }
          (JSVal.num (s.length + 1),
            { heap := h2, root := s.root, length := s.length + 1 })
        else
          let r := insertGo s v fuel p.right
          (JSVal.undef, r.2)

def insert (s : BST) (v : Int) : JSVal × BST :=
  insertGo s v (s.heap.length + 1) s.root

/-- The `constructor`'s bulk load: `list.forEach(item => this.insert(item))`. -/
def insertMany (s : BST) (vs : List Int) : BST :=
  vs.foldl (fun st v => (insert st v).2) s

/-- `BinarySearchTree.remove(value)`.  Mirrors the source statement by
statement: locate the node; if the node is the root, allocate the
placeholder `, left: this.root` and set `node.parent` to it; two-child
case copies the right subtree's leftmost value into the node and
detaches that leftmost node; otherwise the node is replaced in its
parent's slot by its single child (or nothing); finally, if a
placeholder was made, `this.root = rootParent.left`, and the decremented
`length` is returned. -/
def remove (s : BST) (v : Int) : JSVal × BST :=
  let nodeRef := search s v
  if nodeRef.isRef = false then (JSVal.null, s)
  else
    let i := refIdx nodeRef
    let isRoot := nodeRef = s.root
    let m := s.heap.length
    let s1 : BST :=
      if isRoot then
        let h1 := s.heap ++ [(⟨JSVal.undef, JSVal.undef, s.root, JSVal.undef⟩ : Obj)]
        let nd0 := { (getObj s nodeRef) with parent := JSVal.ref m }
        { s with heap := h1.set i nd0 }
      else s
    let nd := getObj s1 nodeRef
    let s5 : BST :=
      if nd.left.isRef && nd.right.isRef then
        let nhRef := getLeftmostDescendant s1 (s1.heap.length + 1) nd.right
        let nh := getObj s1 nhRef
        let s3 := setObj s1 i { nd with value := nh.value }
        let pRef := nh.parent
        let pk := getObj s3 pRef
        let s4 :=
          if pk.left = nhRef then setObj s3 (refIdx pRef) { pk with left := nh.right }
          else setObj s3 (refIdx pRef) { pk with right := nh.right }
        if nh.right.isRef then
          setObj s4 (refIdx nh.right) { (getObj s4 nh.right) with parent := pRef }
        else s4
      else
        let pRef := nd.parent
        let pk := getObj s1 pRef
        let childRef := if nd.left.isRef then nd.left else nd.right
        let s4 :=
          if pk.left = nodeRef then setObj s1 (refIdx pRef) { pk with left := childRef }
          else setObj s1 (refIdx pRef) { pk with right := childRef }
        if childRef.isRef then
          setObj s4 (refIdx childRef) { (getObj s4 childRef) with parent := pRef }
        else s4
    let s6 : BST := if isRoot then { s5 with root := (getObj s5 (JSVal.ref m)).left } else s5
    (JSVal.num (s.length - 1), { s6 with length := s.length - 1 })

/-- The in-order concatenation of `toArray` on a (non-null) node. -/
def toArrayGo (s : BST) : Nat → JSVal → List JSVal
  | 0, _ => []
  | fuel + 1, r =>
    let o := getObj s r
    (if o.left.isRef then toArrayGo s fuel o.left else []) ++ [o.value] ++
      (if o.right.isRef then toArrayGo s fuel o.right else [])

/-- `BinarySearchTree.toArray(node = this.root)`.  On an empty tree the
default argument is `null` and the body's very first read `node.left`
throws a `TypeError`; the embedding returns `none` for that (and only
that) failure. -/
def toArray (s : BST) : Option (List JSVal) :=
  if s.root.isRef then some (toArrayGo s (s.heap.length + 1) s.root) else none

/-- The upward walk of `getPredecessor`:
`while (foundNode.parent && foundNode.parent.left === foundNode)
  foundNode = foundNode.parent`. -/
def predUp (s : BST) : Nat → JSVal → JSVal
  | 0, r => r
  | fuel + 1, r =>
    let o := getObj s r
    if o.parent.isRef && ((getObj s o.parent).left = r) then predUp s fuel o.parent else r

/-- The upward walk of `getSuccessor` (right-child steps). -/
def succUp (s : BST) : Nat → JSVal → JSVal
  | 0, r => r
  | fuel + 1, r =>
    let o := getObj s r
    if o.parent.isRef && ((getObj s o.parent).right = r) then succUp s fuel o.parent else r

/-- `BinarySearchTree.getPredecessor(value)`. -/
def getPredecessor (s : BST) (v : Int) : JSVal :=
  let f := search s v
  if f.isRef = false then JSVal.null
  else
    let o := getObj s f
    if o.left.isRef then (getObj s (getRightmostDescendant s (s.heap.length + 1) o.left)).value
    else
      let r := predUp s (s.heap.length + 1) f
      let o2 := getObj s r
      if o2.parent.isRef = false then JSVal.null else (getObj s o2.parent).value

/-- `BinarySearchTree.getSuccessor(value)`. -/
def getSuccessor (s : BST) (v : Int) : JSVal :=
  let f := search s v
  if f.isRef = false then JSVal.null
  else
    let o := getObj s f
    if o.right.isRef then (getObj s (getLeftmostDescendant s (s.heap.length + 1) o.right)).value
    else
      let r := succUp s (s.heap.length + 1) f
      let o2 := getObj s r
      if o2.parent.isRef = false then JSVal.null else (getObj s o2.parent).value

end Heap

namespace Model

/-- The node structure of `BSTNode` with the two owning links; the
`parent` back-reference is implicit (the structural parent), except for
the root's placeholder-parent case which `TreeState.phantomRoot` tracks.
`nil` is the JavaScript `null`. -/
inductive BTree where
  | nil : BTree
  | node (left : BTree) (value : Int) (right : BTree) : BTree
deriving DecidableEq, Repr

/-- The in-order traversal of `toArray` on a node:
left subtree, then the node's value, then the right subtree. -/
def inorder : BTree → List Int
  | .nil => []
  | .node l v r => inorder l ++ v :: inorder r

/-- Number of nodes reachable from (and including) this node. -/
def treeSize : BTree → Nat
  | .nil => 0
  | .node l _ r => treeSize l + 1 + treeSize r

/-- `BSTNode.getLeftmostDescendant().value` (only ever called on a
non-null node; the `nil` case is a dead default). -/
def leftmostValue : BTree → Int
  | .nil => 0
  | .node .nil v _ => v
  | .node (.node a b c) _ _ => leftmostValue (.node a b c)

/-- `BSTNode.getRightmostDescendant().value`. -/
def rightmostValue : BTree → Int
  | .nil => 0
  | .node _ v .nil => v
  | .node _ _ (.node a b c) => rightmostValue (.node a b c)

/-- Detach the leftmost descendant, linking its parent to its right
child instead (`nextHigher.parent[nodeSide] = nextHigher.right` with
the parent re-pointing of the source's two-child `remove` case). -/
def removeLeftmost : BTree → BTree
  | .nil => .nil
  | .node .nil _ r => r
  | .node (.node a b c) v r => .node (removeLeftmost (.node a b c)) v r

/-- `BinarySearchTree.insert`'s descent: `cmp(value, parent.value)`
chooses the left side, otherwise the right side; a missing child is
where the new node is attached. -/
def insertTree (c : Int → Int → Bool) (v : Int) : BTree → BTree
  | .nil => .node .nil v .nil
  | .node l w r =>
    if c v w then .node (insertTree c v l) w r else .node l w (insertTree c v r)

/-- The body of `remove` once the node (here: its left child, value and
right child) is found.  Two children: copy the right subtree's leftmost
value into the node and detach that leftmost node.  Otherwise replace
the node by its single child (`node.left` if present, else
`node.right`, which is `nil` for a leaf). -/
def deleteFound : BTree → Int → BTree → BTree
  | .node la va ra, _, .node lb vb rb =>
    .node (.node la va ra) (leftmostValue (.node lb vb rb)) (removeLeftmost (.node lb vb rb))
  | .nil, _, r => r
  | l, _, .nil => l

/-- `remove`'s search-then-delete: descend exactly as `search` does
(native equality first, then `cmp` left/right); `none` when the value
is missing (`if (!node) return null`). -/
def removeTree (c : Int → Int → Bool) (v : Int) : BTree → Option BTree
  | .nil => none
  | .node l w r =>
    if w = v then some (deleteFound l w r)
    else if c v w then (removeTree c v l).map (fun l2 => .node l2 w r)
    else (removeTree c v r).map (fun r2 => .node l w r2)

/-- `search` as a membership test along the same descent. -/
def searchTree (c : Int → Int → Bool) (v : Int) : BTree → Bool
  | .nil => false
  | .node l w r =>
    if w = v then true
    else if c v w then searchTree c v l
    else searchTree c v r

/-- The `BinarySearchTree` instance state: the tree under `this.root`,
whether the root's `parent` is the leftover placeholder of a past root
removal (instead of `null`), and `this.length`. -/
structure TreeState where
  root : BTree
  phantomRoot : Bool
  length : Int
deriving DecidableEq, Repr

/-- `new BinarySearchTree()`. -/
def initState : TreeState := ⟨.nil, false, 0⟩

/-- `insert(value)` on the instance: an empty tree gets the new node as
root (with `parent = null`); otherwise the descent attaches the node
and `length` is incremented either way. -/
def insertS (c : Int → Int → Bool) (s : TreeState) (v : Int) : TreeState :=
  match s.root with
  | .nil => ⟨.node .nil v .nil, false, s.length + 1⟩
  | .node l w r => ⟨insertTree c v (.node l w r), s.phantomRoot, s.length + 1⟩

/-- `remove(value)` on the instance: `null` and no mutation when the
value is missing; otherwise the tree with the found node deleted and
`--this.length` is returned.  When the found node is the root the
source routes the relink through the placeholder `, left: this.root`
and then sets `this.root = rootParent.left`, leaving the (surviving or
value-replaced) root with the placeholder as its `parent`: that is
recorded in `phantomRoot`. -/
def removeS (c : Int → Int → Bool) (s : TreeState) (v : Int) : JSVal × TreeState :=
  match removeTree c v s.root with
  | none => (JSVal.null, s)
  | some t2 =>
    let atRoot : Bool :=
      match s.root with
      | .node _ w _ => w == v
      | .nil => false
    let ph2 : Bool :=
      if atRoot then (match t2 with | .nil => false | .node _ _ _ => true) else s.phantomRoot
    (JSVal.num (s.length - 1), ⟨t2, ph2, s.length - 1⟩)

/-- `toArray()` on the instance: on an empty tree the body dereferences
the `null` root (`node.left`) and throws; otherwise the in-order
traversal. -/
def toArrayS (s : TreeState) : Option (List Int) :=
  match s.root with
  | .nil => none
  | .node l w r => some (inorder (.node l w r))

/-- `getPredecessor(value)`, rendered top-down.  The source searches for
the node and then walks `parent` links upward while the current node is
its parent's left child, answering with the first ancestor reached by a
right-child step; along the root-to-node path that ancestor is exactly
the last node at which the descent went right, which `acc` tracks.  If
the walk runs out of ancestors the source returns `null` — also when
the root's `parent` is the leftover placeholder, because the walk steps
from the root into the placeholder (its `left` is the root) and stops
there with no further `parent`. -/
def getPredecessorGo (c : Int → Int → Bool) (v : Int) (acc : Option Int) : BTree → Option Int
  | .nil => none
  | .node l w r =>
    if w = v then
      match l with
      | .nil => acc
      | .node a b d => some (rightmostValue (.node a b d))
    else if c v w then getPredecessorGo c v acc l
    else getPredecessorGo c v (some w) r

def getPredecessorS (c : Int → Int → Bool) (s : TreeState) (v : Int) : Option Int :=
  getPredecessorGo c v none s.root

/-- `getSuccessor(value)`, rendered top-down (mirror of
`getPredecessorGo`, `acc` tracking the last left turn).  One asymmetry
is forced by the source: when the found node has no right child and no
ancestor qualifies, the upward walk stops at the root itself (a
placeholder parent has no `right` field, so the walk cannot step into
it), and then `return foundNode.parent.value` reads the placeholder's
missing `value`, yielding `undefined` instead of `null` whenever the
root's parent is the leftover placeholder. -/
def getSuccessorGo (c : Int → Int → Bool) (v : Int) (acc : Option Int) (ph : Bool) :
    BTree → JSVal
  | .nil => JSVal.null
  | .node l w r =>
    if w = v then
      match r with
      | .nil =>
        match acc with
        | some a => JSVal.num a
        | none => if ph then JSVal.undef else JSVal.null
      | .node a b d => JSVal.num (leftmostValue (.node a b d))
    else if c v w then getSuccessorGo c v (some w) ph l
    else getSuccessorGo c v acc ph r

def getSuccessorS (c : Int → Int → Bool) (s : TreeState) (v : Int) : JSVal :=
  getSuccessorGo c v none s.phantomRoot s.root

/-- One public mutating call. -/
inductive Op where
  | ins : Int → Op
  | rem : Int → Op
deriving DecidableEq, Repr

def applyOp (c : Int → Int → Bool) (s : TreeState) : Op → TreeState
  | .ins v => insertS c s v
  | .rem v => (removeS c s v).2

/-- Run a sequence of public calls (the reachable states of the
structure are exactly `runOps c initState ops`). -/
def runOps (c : Int → Int → Bool) : TreeState → List Op → TreeState
  | s, [] => s
  | s, op :: rest => runOps c (applyOp c s op) rest

/-- Number of inserts in a call sequence (every insert succeeds). -/
def insCount : List Op → Int
  | [] => 0
  | .ins _ :: rest => insCount rest + 1
  | .rem _ :: rest => insCount rest

/-- Number of successful removes in a call sequence run from `s`. -/
def remOkCount (c : Int → Int → Bool) : TreeState → List Op → Int
  | _, [] => 0
  | s, .ins v :: rest => remOkCount c (insertS c s v) rest
  | s, .rem v :: rest =>
    (if (removeTree c v s.root).isSome then 1 else 0) + remOkCount c (removeS c s v).2 rest

/-- The caller-supplied comparison is a strict total order (the
documented contract: a strict ordering predicate consistent with native
equality). -/
structure StrictTotal (c : Int → Int → Bool) : Prop where
  irrefl : ∀ a, c a a = false
  trans : ∀ a b d, c a b = true → c b d = true → c a d = true
  total : ∀ a b, a ≠ b → c a b = true ∨ c b a = true

/-- The BST shape invariant: left values compare less than the node,
right values do not (ties go right). -/
def IsBST (c : Int → Int → Bool) : BTree → Prop
  | .nil => True
  | .node l w r => IsBST c l ∧ IsBST c r ∧
      (∀ x ∈ inorder l, c x w = true) ∧ (∀ x ∈ inorder r, c x w = false)

/-- The constructor's default comparison `(a, b) => a < b`. -/
def ltInt (a b : Int) : Bool := a < b

end Model

/-!
## Theorems

Concrete claims are settled on the JS-level `Heap` embedding by
computation; universally quantified claims about element order and
counts are settled on the `Model` embedding.
-/

/-- **C1** (code bug).  The claim (and the source's own doc comment
`@returns {number} The new size of the tree`) says `insert(value)`
returns the new total element count, however deep the new node is
attached.  In the source, the recursive branches
`this.insert(value, parent.left)` / `this.insert(value, parent.right)`
drop the inner return value, so any insertion that attaches deeper than
one level below the root returns `undefined`.  Witnessed here: after
inserting 5 and 3, `insert(1)` attaches at depth 2, updates `length` to
3 and correctly places the element (`toArray` is `[1, 3, 5]`), but
returns `undefined` instead of 3. -/
theorem c1_insert_deep_attach_returns_undefined :
    (Heap.insert (Heap.insertMany Heap.emptyBST [5, 3]) 1).1 = JSVal.undef ∧
    (Heap.insert Heap.emptyBST 5).1 = JSVal.num 1 ∧
    (Heap.insert (Heap.insertMany Heap.emptyBST [5]) 3).1 = JSVal.num 2 ∧
    (Heap.insert (Heap.insertMany Heap.emptyBST [5, 3]) 1).2.length = 3 ∧
    Heap.toArray (Heap.insert (Heap.insertMany Heap.emptyBST [5, 3]) 1).2 =
      some [JSVal.num 1, JSVal.num 3, JSVal.num 5] := by
  decide

/-- **C2** (code bug).  The claim says removal never leaves a dangling
or incorrect `parent` on a live node and that the root's parent is
`null`.  But when `remove` targets the root and the tree stays
non-empty, the surviving root keeps the transient placeholder
`, left: this.root` as its `parent`: after inserting `[5, 8]` and
removing 5, the new root (node 8, heap index 1) has `parent` pointing
at heap index 2, which is the placeholder object (its `value` is
`undefined`, unlike any real node), not `null`. -/
theorem c2_root_removal_leaves_placeholder_parent :
    (Heap.remove (Heap.insertMany Heap.emptyBST [5, 8]) 5).2.root = JSVal.ref 1 ∧
    (Heap.getObj (Heap.remove (Heap.insertMany Heap.emptyBST [5, 8]) 5).2 (JSVal.ref 1)).parent
      = JSVal.ref 2 ∧
    (Heap.getObj (Heap.remove (Heap.insertMany Heap.emptyBST [5, 8]) 5).2 (JSVal.ref 2)).value
      = JSVal.undef ∧
    Heap.toArray (Heap.remove (Heap.insertMany Heap.emptyBST [5, 8]) 5).2 =
      some [JSVal.num 8] := by
  decide

/-- **C4** (code bug).  The claim says `getSuccessor(max)` returns
`null` on every reachable non-empty state.  On the state reached by
inserting `[5, 3, 8]` and removing 5 (a root removal, which leaves the
placeholder as the root's `parent`), the elements are `[3, 8]`, and
`getSuccessor(8)` — the maximum — walks up to the root, finds the
placeholder still attached as its truthy `parent`, and returns the
placeholder's missing `value`: `undefined`, not `null`
(`getPredecessor(3)` on the same state does return `null`). -/
theorem c4_successor_of_max_after_root_removal_is_undefined :
    Heap.toArray (Heap.remove (Heap.insertMany Heap.emptyBST [5, 3, 8]) 5).2 =
      some [JSVal.num 3, JSVal.num 8] ∧
    Heap.getSuccessor (Heap.remove (Heap.insertMany Heap.emptyBST [5, 3, 8]) 5).2 8 =
      JSVal.undef ∧
    Heap.getPredecessor (Heap.remove (Heap.insertMany Heap.emptyBST [5, 3, 8]) 5).2 3 =
      JSVal.null ∧
    JSVal.undef ≠ JSVal.null := by
  decide

/-- **C6** (confirmed).  If `search` returns `null` (the value is
absent), then `remove` returns the literal `null` — distinguished from
every numeric count — and the state (heap, every node link, root, and
`length`) is exactly unchanged. -/
theorem c6_remove_missing_is_null_and_pure (s : Heap.BST) (v : Int)
    (h : Heap.search s v = JSVal.null) :
    Heap.remove s v = (JSVal.null, s) ∧ ∀ n : Int, (Heap.remove s v).1 ≠ JSVal.num n := by
  have h1 : Heap.remove s v = (JSVal.null, s) := by
    simp only [Heap.remove, h]
    rfl
  exact ⟨h1, fun n => by simp [h1]⟩

/-- Witness for C6 at a concrete input: the tree `[5]` with the absent
value 3. -/
theorem c6_remove_missing_is_null_and_pure_witness :
    Heap.search (Heap.insertMany Heap.emptyBST [5]) 3 = JSVal.null ∧
    Heap.remove (Heap.insertMany Heap.emptyBST [5]) 3 =
      (JSVal.null, Heap.insertMany Heap.emptyBST [5]) :=
  ⟨by decide, (c6_remove_missing_is_null_and_pure (Heap.insertMany Heap.emptyBST [5]) 3
    (by decide)).1⟩

/-- **C7** (confirmed).  Scenario A: inserting `[5, 3, 8, 1, 4, 7, 9]`
gives `toArray() = [1, 3, 4, 5, 7, 8, 9]` and count 7.  Scenario B:
`remove(5)` then returns count 6, the root node's value becomes 7 (the
leftmost of its right subtree, whose node is detached), and
`toArray() = [1, 3, 4, 7, 8, 9]`. -/
theorem c7_scenario_a_then_remove_root :
    Heap.toArray (Heap.insertMany Heap.emptyBST [5, 3, 8, 1, 4, 7, 9]) =
      some [JSVal.num 1, JSVal.num 3, JSVal.num 4, JSVal.num 5, JSVal.num 7,
        JSVal.num 8, JSVal.num 9] ∧
    (Heap.insertMany Heap.emptyBST [5, 3, 8, 1, 4, 7, 9]).length = 7 ∧
    (Heap.remove (Heap.insertMany Heap.emptyBST [5, 3, 8, 1, 4, 7, 9]) 5).1 = JSVal.num 6 ∧
    (Heap.getObj (Heap.remove (Heap.insertMany Heap.emptyBST [5, 3, 8, 1, 4, 7, 9]) 5).2
      (Heap.remove (Heap.insertMany Heap.emptyBST [5, 3, 8, 1, 4, 7, 9]) 5).2.root).value =
      JSVal.num 7 ∧
    Heap.toArray (Heap.remove (Heap.insertMany Heap.emptyBST [5, 3, 8, 1, 4, 7, 9]) 5).2 =
      some [JSVal.num 1, JSVal.num 3, JSVal.num 4, JSVal.num 7, JSVal.num 8, JSVal.num 9] ∧
    (Heap.remove (Heap.insertMany Heap.emptyBST [5, 3, 8, 1, 4, 7, 9]) 5).2.length = 6 := by
  decide

/-- **C8** (confirmed).  Scenario D: inserting `[5, 5, 5]` yields count
3 and `toArray() = [5, 5, 5]`; three successive `remove(5)` calls
return 2, 1, 0, and a fourth returns the not-found signal `null`. -/
theorem c8_duplicates_insert_and_remove :
    (Heap.insertMany Heap.emptyBST [5, 5, 5]).length = 3 ∧
    Heap.toArray (Heap.insertMany Heap.emptyBST [5, 5, 5]) =
      some [JSVal.num 5, JSVal.num 5, JSVal.num 5] ∧
    (Heap.remove (Heap.insertMany Heap.emptyBST [5, 5, 5]) 5).1 = JSVal.num 2 ∧
    (Heap.remove (Heap.remove (Heap.insertMany Heap.emptyBST [5, 5, 5]) 5).2 5).1 =
      JSVal.num 1 ∧
    (Heap.remove (Heap.remove (Heap.remove
      (Heap.insertMany Heap.emptyBST [5, 5, 5]) 5).2 5).2 5).1 = JSVal.num 0 ∧
    (Heap.remove (Heap.remove (Heap.remove (Heap.remove
      (Heap.insertMany Heap.emptyBST [5, 5, 5]) 5).2 5).2 5).2 5).1 = JSVal.null := by
  decide

/-- **C10** (confirmed).  On the empty tree, `toArray` dereferences the
absent root (`node.left` on `null` throws, modelled as `none`), while
every other public operation completes: `search`/`remove`/
`getPredecessor`/`getSuccessor` return their absent signals without
touching any field of a missing node, and `insert` returns 1. -/
theorem c10_toArray_empty_fails_other_ops_succeed (v : Int) :
    Heap.toArray Heap.emptyBST = none ∧
    Heap.search Heap.emptyBST v = JSVal.null ∧
    Heap.remove Heap.emptyBST v = (JSVal.null, Heap.emptyBST) ∧
    Heap.getPredecessor Heap.emptyBST v = JSVal.null ∧
    Heap.getSuccessor Heap.emptyBST v = JSVal.null ∧
    (Heap.insert Heap.emptyBST v).1 = JSVal.num 1 ∧
    Heap.toArray (Heap.insert Heap.emptyBST v).2 = some [JSVal.num v] := by
  refine ⟨rfl, rfl, rfl, rfl, rfl, rfl, rfl⟩

/-- **C3**, counterexample.  The claim quantifies over *every* sequence
of operations, but after the empty sequence (or any sequence emptying
the tree) `toArray()` does not yield the (empty) sorted sequence of
stored elements: it dereferences the `null` root and fails. -/
theorem c3_counterexample_empty_tree_toArray_fails :
    Model.toArrayS (Model.runOps Model.ltInt Model.initState []) = none ∧
    Heap.toArray Heap.emptyBST = none := by
  exact ⟨rfl, rfl⟩

namespace Model

theorem length_insertS (c : Int → Int → Bool) (s : TreeState) (v : Int) :
    (insertS c s v).length = s.length + 1 := by
  cases h : s.root <;> simp [insertS, h]

theorem size_insertTree (c : Int → Int → Bool) (v : Int) (t : BTree) :
    treeSize (insertTree c v t) = treeSize t + 1 := by
  induction t with
  | nil => rfl
  | node l w r ihl ihr =>
    cases hc : c v w <;> simp [insertTree, hc, treeSize, ihl, ihr] <;> omega

theorem size_removeLeftmost (t : BTree) (h : t ≠ BTree.nil) :
    treeSize (removeLeftmost t) + 1 = treeSize t := by
  induction t with
  | nil => exact absurd rfl h
  | node l w r ihl ihr =>
    cases l with
    | nil => simp only [removeLeftmost, treeSize]; omega
    | node a b d =>
      have hl := ihl (by simp)
      simp only [removeLeftmost, treeSize] at hl ⊢
      omega

theorem size_deleteFound (l : BTree) (w : Int) (r : BTree) :
    treeSize (deleteFound l w r) + 1 = treeSize (BTree.node l w r) := by
  match l, r with
  | BTree.node la va ra, BTree.node lb vb rb =>
    have hr := size_removeLeftmost (BTree.node lb vb rb) (by simp)
    simp only [deleteFound, treeSize] at hr ⊢
    omega
  | BTree.nil, r =>
    cases r with
    | nil => simp only [deleteFound, treeSize]
    | node a b d => simp only [deleteFound, treeSize]; omega
  | BTree.node la va ra, BTree.nil =>
    simp only [deleteFound, treeSize]

theorem size_removeTree (c : Int → Int → Bool) (v : Int) :
    ∀ t t2 : BTree, removeTree c v t = some t2 → treeSize t2 + 1 = treeSize t := by
  intro t
  induction t with
  | nil => intro t2 h; simp [removeTree] at h
  | node l w r ihl ihr =>
    intro t2 h
    simp only [removeTree] at h
    split at h
    · rw [Option.some.injEq] at h
      subst h
      exact size_deleteFound l w r
    · split at h
      · rw [Option.map_eq_some'] at h
        obtain ⟨l2, hl2, ht2⟩ := h
        subst ht2
        have := ihl l2 hl2
        simp only [treeSize] at this ⊢
        omega
      · rw [Option.map_eq_some'] at h
        obtain ⟨r2, hr2, ht2⟩ := h
        subst ht2
        have := ihr r2 hr2
        simp only [treeSize] at this ⊢
        omega

theorem length_size_applyOp (c : Int → Int → Bool) (s : TreeState) (op : Op)
    (h : s.length = (treeSize s.root : Int)) :
    (applyOp c s op).length = (treeSize (applyOp c s op).root : Int) := by
  cases op with
  | ins v =>
    cases hr : s.root with
    | nil =>
      rw [hr] at h
      simp only [treeSize, Nat.cast_zero] at h
      simp [applyOp, insertS, hr, treeSize, h]
    | node l w r =>
      rw [hr] at h
      simp only [applyOp, insertS, hr, size_insertTree]
      push_cast
      omega
  | rem v =>
    cases hrm : removeTree c v s.root with
    | none =>
      simp only [applyOp, removeS, hrm]
      exact h
    | some t2 =>
      have hs := size_removeTree c v s.root t2 hrm
      simp only [applyOp, removeS, hrm]
      rw [h]
      omega

theorem length_size_runOps (c : Int → Int → Bool) (ops : List Op) :
    ∀ s : TreeState, s.length = (treeSize s.root : Int) →
      (runOps c s ops).length = (treeSize (runOps c s ops).root : Int) := by
  induction ops with
  | nil => intro s h; exact h
  | cons op rest ih =>
    intro s h
    exact ih (applyOp c s op) (length_size_applyOp c s op h)

theorem length_count_runOps (c : Int → Int → Bool) (ops : List Op) :
    ∀ s : TreeState, (runOps c s ops).length = s.length + insCount ops - remOkCount c s ops := by
  induction ops with
  | nil => intro s; simp [runOps, insCount, remOkCount]
  | cons op rest ih =>
    intro s
    cases op with
    | ins v =>
      have := ih (insertS c s v)
      simp only [runOps, applyOp, insCount, remOkCount] at this ⊢
      rw [this, length_insertS]
      omega
    | rem v =>
      have := ih (removeS c s v).2
      simp only [runOps, applyOp, insCount, remOkCount] at this ⊢
      rw [this]
      cases hrm : removeTree c v s.root with
      | none => simp [removeS, hrm]
      | some t2 => simp [removeS, hrm]; omega

end Model

/-- **C5** (confirmed).  For every comparison function and every
sequence of `insert`/`remove` calls from a fresh tree, the exposed
`length` equals the number of nodes reachable from the root, and also
equals the number of inserts (each one succeeds and adds exactly one
node) minus the number of successful removes (each one deletes exactly
one node; a not-found remove changes nothing). -/
theorem c5_count_consistency (c : Int → Int → Bool) (ops : List Model.Op) :
    (Model.runOps c Model.initState ops).length =
      (Model.treeSize (Model.runOps c Model.initState ops).root : Int) ∧
    (Model.runOps c Model.initState ops).length =
      Model.insCount ops - Model.remOkCount c Model.initState ops := by
  constructor
  · exact Model.length_size_runOps c ops Model.initState rfl
  · have := Model.length_count_runOps c ops Model.initState
    simpa [Model.initState] using this

namespace Model

theorem strictTotal_asymm (c : Int → Int → Bool) (hc : StrictTotal c) (a b : Int)
    (h : c a b = true) : c b a = false := by
  cases h2 : c b a with
  | false => rfl
  | true =>
    have h3 := hc.trans a b a h h2
    rw [hc.irrefl a] at h3
    exact absurd h3 (by simp)

theorem strictTotal_eq_of_not_lt (c : Int → Int → Bool) (hc : StrictTotal c) (a b : Int)
    (h1 : c a b = false) (h2 : c b a = false) : a = b := by
  by_contra hne
  rcases hc.total a b hne with h | h
  · rw [h1] at h; exact absurd h (by simp)
  · rw [h2] at h; exact absurd h (by simp)

theorem mem_inorder_node (x : Int) (l : BTree) (w : Int) (r : BTree) :
    x ∈ inorder (BTree.node l w r) ↔ x ∈ inorder l ∨ x = w ∨ x ∈ inorder r := by
  simp [inorder]

theorem mem_inorder_insertTree (c : Int → Int → Bool) (v x : Int) :
    ∀ t : BTree, (x ∈ inorder (insertTree c v t) ↔ x = v ∨ x ∈ inorder t) := by
  intro t
  induction t with
  | nil => simp [insertTree, inorder]
  | node l w r ihl ihr =>
    cases hc : c v w with
    | true =>
      simp only [insertTree, hc, if_pos, inorder, List.mem_append, List.mem_cons, ihl]
      tauto
    | false =>
      simp only [insertTree, hc, Bool.false_eq_true, if_neg, not_false_iff, inorder,
        List.mem_append, List.mem_cons, ihr]
      tauto

theorem isBST_insertTree (c : Int → Int → Bool) (v : Int) :
    ∀ t : BTree, IsBST c t → IsBST c (insertTree c v t) := by
  intro t
  induction t with
  | nil => intro _; simp [insertTree, IsBST, inorder]
  | node l w r ihl ihr =>
    intro hb
    simp only [IsBST] at hb
    obtain ⟨hbl, hbr, hll, hrr⟩ := hb
    cases hc : c v w with
    | true =>
      simp only [insertTree, hc, if_pos, IsBST]
      refine ⟨ihl hbl, hbr, ?_, hrr⟩
      intro x hx
      rcases (mem_inorder_insertTree c v x l).mp hx with rfl | hx
      · exact hc
      · exact hll x hx
    | false =>
      simp only [insertTree, hc, Bool.false_eq_true, if_neg, not_false_iff, IsBST]
      refine ⟨hbl, ihr hbr, hll, ?_⟩
      intro x hx
      rcases (mem_inorder_insertTree c v x r).mp hx with rfl | hx
      · exact hc
      · exact hrr x hx

theorem leftmostValue_mem : ∀ t : BTree, t ≠ BTree.nil → leftmostValue t ∈ inorder t := by
  intro t
  induction t with
  | nil => intro h; exact absurd rfl h
  | node l w r ihl ihr =>
    intro _
    cases l with
    | nil => simp [leftmostValue, inorder]
    | node a b d =>
      have hm := ihl (by simp)
      simp only [leftmostValue, inorder]
      exact List.mem_append_left _ hm

theorem rightmostValue_mem : ∀ t : BTree, t ≠ BTree.nil → rightmostValue t ∈ inorder t := by
  intro t
  induction t with
  | nil => intro h; exact absurd rfl h
  | node l w r ihl ihr =>
    intro _
    cases r with
    | nil => simp [rightmostValue, inorder]
    | node a b d =>
      have hm := ihr (by simp)
      simp only [rightmostValue, inorder]
      exact List.mem_append_right _ (List.mem_cons_of_mem _ hm)

theorem inorder_removeLeftmost : ∀ t : BTree, t ≠ BTree.nil →
    inorder t = leftmostValue t :: inorder (removeLeftmost t) := by
  intro t
  induction t with
  | nil => intro h; exact absurd rfl h
  | node l w r ihl ihr =>
    intro _
    cases l with
    | nil => simp [leftmostValue, removeLeftmost, inorder]
    | node a b d =>
      have hl := ihl (by simp)
      have e1 : inorder (BTree.node (BTree.node a b d) w r) =
          inorder (BTree.node a b d) ++ w :: inorder r := rfl
      have e2 : inorder (removeLeftmost (BTree.node (BTree.node a b d) w r)) =
          inorder (removeLeftmost (BTree.node a b d)) ++ w :: inorder r := rfl
      have e3 : leftmostValue (BTree.node (BTree.node a b d) w r) =
          leftmostValue (BTree.node a b d) := rfl
      rw [e1, e2, e3, hl]
      simp

theorem isBST_removeLeftmost (c : Int → Int → Bool) :
    ∀ t : BTree, IsBST c t → IsBST c (removeLeftmost t) := by
  intro t
  induction t with
  | nil => intro _; simp [removeLeftmost, IsBST]
  | node l w r ihl ihr =>
    intro hb
    simp only [IsBST] at hb
    obtain ⟨hbl, hbr, hll, hrr⟩ := hb
    cases l with
    | nil => simpa [removeLeftmost] using hbr
    | node a b d =>
      simp only [removeLeftmost, IsBST]
      refine ⟨ihl hbl, hbr, ?_, hrr⟩
      intro x hx
      apply hll
      rw [inorder_removeLeftmost (BTree.node a b d) (by simp)]
      exact List.mem_cons_of_mem _ hx

theorem leftmost_min (c : Int → Int → Bool) (hc : StrictTotal c) :
    ∀ t : BTree, IsBST c t → ∀ x ∈ inorder t, c x (leftmostValue t) = false := by
  intro t
  induction t with
  | nil => intro _ x hx; simp [inorder] at hx
  | node l w r ihl ihr =>
    intro hb x hx
    simp only [IsBST] at hb
    obtain ⟨hbl, hbr, hll, hrr⟩ := hb
    cases l with
    | nil =>
      simp only [leftmostValue]
      simp only [inorder, List.nil_append, List.mem_cons] at hx
      rcases hx with rfl | hx
      · exact hc.irrefl x
      · exact hrr x hx
    | node a b d =>
      simp only [leftmostValue]
      have hlm : leftmostValue (BTree.node a b d) ∈ inorder (BTree.node a b d) :=
        leftmostValue_mem _ (by simp)
      rw [mem_inorder_node] at hx
      rcases hx with hx | rfl | hx
      · exact ihl hbl x hx
      · exact strictTotal_asymm c hc _ _ (hll _ hlm)
      · cases h1 : c x (leftmostValue (BTree.node a b d)) with
        | false => rfl
        | true =>
          have h3 := hc.trans _ _ _ h1 (hll _ hlm)
          rw [hrr x hx] at h3
          exact absurd h3 (by simp)

theorem rightmost_max (c : Int → Int → Bool) (hc : StrictTotal c) :
    ∀ t : BTree, IsBST c t → ∀ x ∈ inorder t, c (rightmostValue t) x = false := by
  intro t
  induction t with
  | nil => intro _ x hx; simp [inorder] at hx
  | node l w r ihl ihr =>
    intro hb x hx
    simp only [IsBST] at hb
    obtain ⟨hbl, hbr, hll, hrr⟩ := hb
    cases r with
    | nil =>
      simp only [rightmostValue]
      rw [mem_inorder_node] at hx
      rcases hx with hx | rfl | hx
      · exact strictTotal_asymm c hc _ _ (hll x hx)
      · exact hc.irrefl x
      · simp [inorder] at hx
    | node a b d =>
      simp only [rightmostValue]
      have hrm : rightmostValue (BTree.node a b d) ∈ inorder (BTree.node a b d) :=
        rightmostValue_mem _ (by simp)
      rw [mem_inorder_node] at hx
      rcases hx with hx | rfl | hx
      · cases h1 : c (rightmostValue (BTree.node a b d)) x with
        | false => rfl
        | true =>
          have h3 := hc.trans _ _ _ h1 (hll x hx)
          rw [hrr _ hrm] at h3
          exact absurd h3 (by simp)
      · exact hrr _ hrm
      · exact ihr hbr x hx

end Model

namespace Model

theorem mem_deleteFound (l : BTree) (w : Int) (r : BTree) (x : Int)
    (hx : x ∈ inorder (deleteFound l w r)) : x ∈ inorder (BTree.node l w r) := by
  match l, r with
  | BTree.node la va ra, BTree.node lb vb rb =>
    have hr := inorder_removeLeftmost (BTree.node lb vb rb) (by simp)
    simp only [deleteFound] at hx
    rw [mem_inorder_node] at hx
    rw [mem_inorder_node]
    rcases hx with hx | hx | hx
    · exact Or.inl hx
    · refine Or.inr (Or.inr ?_)
      rw [hr, hx]
      exact List.mem_cons_self _ _
    · refine Or.inr (Or.inr ?_)
      rw [hr]
      exact List.mem_cons_of_mem _ hx
  | BTree.nil, r =>
    simp only [deleteFound] at hx
    rw [mem_inorder_node]
    exact Or.inr (Or.inr hx)
  | BTree.node la va ra, BTree.nil =>
    simp only [deleteFound] at hx
    rw [mem_inorder_node]
    exact Or.inl hx

theorem mem_removeTree (c : Int → Int → Bool) (v : Int) :
    ∀ t t2 : BTree, removeTree c v t = some t2 → ∀ x ∈ inorder t2, x ∈ inorder t := by
  intro t
  induction t with
  | nil => intro t2 h; simp [removeTree] at h
  | node l w r ihl ihr =>
    intro t2 h x hx
    simp only [removeTree] at h
    split at h
    · rw [Option.some.injEq] at h
      subst h
      exact mem_deleteFound l w r x hx
    · split at h
      · rw [Option.map_eq_some'] at h
        obtain ⟨l2, hl2, rfl⟩ := h
        rw [mem_inorder_node] at hx ⊢
        rcases hx with hx | hx | hx
        · exact Or.inl (ihl l2 hl2 x hx)
        · exact Or.inr (Or.inl hx)
        · exact Or.inr (Or.inr hx)
      · rw [Option.map_eq_some'] at h
        obtain ⟨r2, hr2, rfl⟩ := h
        rw [mem_inorder_node] at hx ⊢
        rcases hx with hx | hx | hx
        · exact Or.inl hx
        · exact Or.inr (Or.inl hx)
        · exact Or.inr (Or.inr (ihr r2 hr2 x hx))

theorem isBST_deleteFound (c : Int → Int → Bool) (hc : StrictTotal c) (l : BTree) (w : Int)
    (r : BTree) (hb : IsBST c (BTree.node l w r)) : IsBST c (deleteFound l w r) := by
  simp only [IsBST] at hb
  obtain ⟨hbl, hbr, hll, hrr⟩ := hb
  match l, r with
  | BTree.node la va ra, BTree.node lb vb rb =>
    simp only [deleteFound, IsBST]
    have hrne : BTree.node lb vb rb ≠ BTree.nil := by simp
    have hlmem := leftmostValue_mem (BTree.node lb vb rb) hrne
    refine ⟨hbl, isBST_removeLeftmost c _ hbr, ?_, ?_⟩
    · intro x hx
      have h1 := hll x hx
      have h2 := hrr _ hlmem
      cases h3 : c x (leftmostValue (BTree.node lb vb rb)) with
      | true => rfl
      | false =>
        by_cases he : x = leftmostValue (BTree.node lb vb rb)
        · rw [he] at h1
          rw [h1] at h2
          exact absurd h2 (by simp)
        · rcases hc.total _ _ he with h4 | h4
          · rw [h3] at h4
            exact absurd h4 (by simp)
          · have h5 := hc.trans _ _ _ h4 h1
            rw [h5] at h2
            exact absurd h2 (by simp)
    · intro x hx
      have hx2 : x ∈ inorder (BTree.node lb vb rb) := by
        rw [inorder_removeLeftmost _ hrne]
        exact List.mem_cons_of_mem _ hx
      exact leftmost_min c hc _ hbr x hx2
  | BTree.nil, r => simpa [deleteFound] using hbr
  | BTree.node la va ra, BTree.nil => simpa [deleteFound] using hbl

theorem isBST_removeTree (c : Int → Int → Bool) (hc : StrictTotal c) (v : Int) :
    ∀ t t2 : BTree, IsBST c t → removeTree c v t = some t2 → IsBST c t2 := by
  intro t
  induction t with
  | nil => intro t2 _ h; simp [removeTree] at h
  | node l w r ihl ihr =>
    intro t2 hb h
    have hb2 := hb
    simp only [IsBST] at hb2
    obtain ⟨hbl, hbr, hll, hrr⟩ := hb2
    simp only [removeTree] at h
    split at h
    · rw [Option.some.injEq] at h
      subst h
      exact isBST_deleteFound c hc l w r hb
    · split at h
      · rw [Option.map_eq_some'] at h
        obtain ⟨l2, hl2, rfl⟩ := h
        simp only [IsBST]
        exact ⟨ihl l2 hbl hl2, hbr, fun x hx => hll x (mem_removeTree c v l l2 hl2 x hx), hrr⟩
      · rw [Option.map_eq_some'] at h
        obtain ⟨r2, hr2, rfl⟩ := h
        simp only [IsBST]
        exact ⟨hbl, ihr r2 hbr hr2, hll, fun x hx => hrr x (mem_removeTree c v r r2 hr2 x hx)⟩

theorem pairwise_inorder (c : Int → Int → Bool) (hc : StrictTotal c) :
    ∀ t : BTree, IsBST c t → List.Pairwise (fun a b => c b a = false) (inorder t) := by
  intro t
  induction t with
  | nil => intro _; simp [inorder]
  | node l w r ihl ihr =>
    intro hb
    simp only [IsBST] at hb
    obtain ⟨hbl, hbr, hll, hrr⟩ := hb
    have e1 : inorder (BTree.node l w r) = inorder l ++ w :: inorder r := rfl
    rw [e1, List.pairwise_append]
    refine ⟨ihl hbl, ?_, ?_⟩
    · rw [List.pairwise_cons]
      exact ⟨fun y hy => hrr y hy, ihr hbr⟩
    · intro a ha b hb2
      rcases List.mem_cons.mp hb2 with rfl | hb2
      · exact strictTotal_asymm c hc _ _ (hll a ha)
      · cases h1 : c b a with
        | false => rfl
        | true =>
          have h3 := hc.trans _ _ _ h1 (hll a ha)
          rw [hrr b hb2] at h3
          exact absurd h3 (by simp)

theorem isBST_applyOp (c : Int → Int → Bool) (hc : StrictTotal c) (s : TreeState) (op : Op)
    (h : IsBST c s.root) : IsBST c (applyOp c s op).root := by
  cases op with
  | ins v =>
    cases hr : s.root with
    | nil => simp [applyOp, insertS, hr, IsBST, inorder]
    | node l w2 r =>
      rw [hr] at h
      simp only [applyOp, insertS, hr]
      exact isBST_insertTree c v _ h
  | rem v =>
    cases hrm : removeTree c v s.root with
    | none => simpa [applyOp, removeS, hrm] using h
    | some t2 =>
      simp only [applyOp, removeS, hrm]
      exact isBST_removeTree c hc v s.root t2 h hrm

theorem isBST_runOps (c : Int → Int → Bool) (hc : StrictTotal c) (ops : List Op) :
    ∀ s : TreeState, IsBST c s.root → IsBST c (runOps c s ops).root := by
  induction ops with
  | nil => intro s h; exact h
  | cons op rest ih =>
    intro s h
    exact ih (applyOp c s op) (isBST_applyOp c hc s op h)

end Model

/-- The default comparison `(a, b) => a < b` is a strict total order. -/
theorem strictTotal_ltInt : Model.StrictTotal Model.ltInt := by
  constructor
  · intro a; simp [Model.ltInt]
  · intro a b d h1 h2
    simp only [Model.ltInt, decide_eq_true_eq] at h1 h2 ⊢
    omega
  · intro a b h
    simp only [Model.ltInt, decide_eq_true_eq]
    omega

/-- **C3** (corrected: empty trees excepted, see the counterexample).
For every strict total ordering predicate and every sequence of
`insert`/`remove` calls from a fresh tree, if the resulting tree is
non-empty then `toArray()` yields exactly the in-order listing of the
stored elements, and that listing is sorted ascending under the
predicate (no later element compares less than an earlier one). -/
theorem c3_toArray_sorted_after_any_ops (c : Int → Int → Bool) (hc : Model.StrictTotal c)
    (ops : List Model.Op) (hne : (Model.runOps c Model.initState ops).root ≠ Model.BTree.nil) :
    Model.toArrayS (Model.runOps c Model.initState ops) =
      some (Model.inorder (Model.runOps c Model.initState ops).root) ∧
    List.Pairwise (fun a b => c b a = false)
      (Model.inorder (Model.runOps c Model.initState ops).root) := by
  have hbst : Model.IsBST c (Model.runOps c Model.initState ops).root :=
    Model.isBST_runOps c hc ops Model.initState (by simp [Model.initState, Model.IsBST])
  constructor
  · cases hroot : (Model.runOps c Model.initState ops).root with
    | nil => exact absurd hroot hne
    | node l w r => simp [Model.toArrayS, hroot]
  · exact Model.pairwise_inorder c hc _ hbst

/-- Witness for C3 at a concrete input: the call sequence
`insert 2; insert 1; insert 3; remove 2` under the default ordering. -/
theorem c3_toArray_sorted_after_any_ops_witness :
    Model.toArrayS (Model.runOps Model.ltInt Model.initState
        [Model.Op.ins 2, Model.Op.ins 1, Model.Op.ins 3, Model.Op.rem 2]) =
      some (Model.inorder (Model.runOps Model.ltInt Model.initState
        [Model.Op.ins 2, Model.Op.ins 1, Model.Op.ins 3, Model.Op.rem 2]).root) ∧
    List.Pairwise (fun a b => Model.ltInt b a = false)
      (Model.inorder (Model.runOps Model.ltInt Model.initState
        [Model.Op.ins 2, Model.Op.ins 1, Model.Op.ins 3, Model.Op.rem 2]).root) :=
  c3_toArray_sorted_after_any_ops Model.ltInt strictTotal_ltInt
    [Model.Op.ins 2, Model.Op.ins 1, Model.Op.ins 3, Model.Op.rem 2] (by decide)

namespace Model

theorem nodup_parts (l : BTree) (w : Int) (r : BTree)
    (h : (inorder (BTree.node l w r)).Nodup) :
    (inorder l).Nodup ∧ (inorder r).Nodup ∧ w ∉ inorder l ∧ w ∉ inorder r := by
  have e1 : inorder (BTree.node l w r) = inorder l ++ w :: inorder r := rfl
  rw [e1, List.nodup_append] at h
  obtain ⟨h1, h2, h3⟩ := h
  rw [List.nodup_cons] at h2
  exact ⟨h1, h2.2, fun hw => h3 hw (List.mem_cons_self _ _), h2.1⟩

theorem exists_greatest (c : Int → Int → Bool) (hc : StrictTotal c) :
    ∀ xs : List Int, xs ≠ [] → ∃ m ∈ xs, ∀ x ∈ xs, c m x = false := by
  intro xs
  induction xs with
  | nil => intro h; exact absurd rfl h
  | cons a rest ih =>
    intro _
    by_cases h0 : rest = []
    · subst h0
      refine ⟨a, List.mem_cons_self _ _, ?_⟩
      intro x hx
      simp only [List.mem_singleton] at hx
      subst hx
      exact hc.irrefl x
    · obtain ⟨m, hm, hmax⟩ := ih h0
      cases hcm : c m a with
      | true =>
        refine ⟨a, List.mem_cons_self _ _, ?_⟩
        intro x hx
        rcases List.mem_cons.mp hx with rfl | hx
        · exact hc.irrefl x
        · cases h1 : c a x with
          | false => rfl
          | true =>
            have h2 := hc.trans _ _ _ hcm h1
            rw [hmax x hx] at h2
            exact absurd h2 (by simp)
      | false =>
        refine ⟨m, List.mem_cons_of_mem _ hm, ?_⟩
        intro x hx
        rcases List.mem_cons.mp hx with rfl | hx
        · exact hcm
        · exact hmax x hx

theorem exists_least (c : Int → Int → Bool) (hc : StrictTotal c) :
    ∀ xs : List Int, xs ≠ [] → ∃ m ∈ xs, ∀ x ∈ xs, c x m = false := by
  intro xs
  induction xs with
  | nil => intro h; exact absurd rfl h
  | cons a rest ih =>
    intro _
    by_cases h0 : rest = []
    · subst h0
      refine ⟨a, List.mem_cons_self _ _, ?_⟩
      intro x hx
      simp only [List.mem_singleton] at hx
      subst hx
      exact hc.irrefl x
    · obtain ⟨m, hm, hmin⟩ := ih h0
      cases hcm : c a m with
      | true =>
        refine ⟨a, List.mem_cons_self _ _, ?_⟩
        intro x hx
        rcases List.mem_cons.mp hx with rfl | hx
        · exact hc.irrefl x
        · cases h1 : c x a with
          | false => rfl
          | true =>
            have h2 := hc.trans _ _ _ h1 hcm
            rw [hmin x hx] at h2
            exact absurd h2 (by simp)
      | false =>
        refine ⟨m, List.mem_cons_of_mem _ hm, ?_⟩
        intro x hx
        rcases List.mem_cons.mp hx with rfl | hx
        · exact hcm
        · exact hmin x hx

theorem predGo_found (c : Int → Int → Bool) (v : Int) (acc : Option Int) (l : BTree) (w0 : Int)
    (r : BTree) (hw0 : w0 = v) (hlne : l ≠ BTree.nil) :
    getPredecessorGo c v acc (BTree.node l w0 r) = some (rightmostValue l) := by
  cases l with
  | nil => exact absurd rfl hlne
  | node a b d => simp [getPredecessorGo, hw0]

theorem predGo_found_nil (c : Int → Int → Bool) (v : Int) (acc : Option Int) (w0 : Int)
    (r : BTree) (hw0 : w0 = v) :
    getPredecessorGo c v acc (BTree.node BTree.nil w0 r) = acc := by
  simp [getPredecessorGo, hw0]

theorem predGo_left (c : Int → Int → Bool) (v : Int) (acc : Option Int) (l : BTree) (w0 : Int)
    (r : BTree) (hw0 : ¬ w0 = v) (hcv : c v w0 = true) :
    getPredecessorGo c v acc (BTree.node l w0 r) = getPredecessorGo c v acc l := by
  simp only [getPredecessorGo]
  rw [if_neg hw0, if_pos hcv]

theorem predGo_right (c : Int → Int → Bool) (v : Int) (acc : Option Int) (l : BTree) (w0 : Int)
    (r : BTree) (hw0 : ¬ w0 = v) (hcv : c v w0 = false) :
    getPredecessorGo c v acc (BTree.node l w0 r) = getPredecessorGo c v (some w0) r := by
  simp only [getPredecessorGo]
  rw [if_neg hw0, if_neg (by simp [hcv])]

theorem succGo_found (c : Int → Int → Bool) (v : Int) (acc : Option Int) (ph : Bool)
    (l : BTree) (w0 : Int) (r : BTree) (hw0 : w0 = v) (hrne : r ≠ BTree.nil) :
    getSuccessorGo c v acc ph (BTree.node l w0 r) = JSVal.num (leftmostValue r) := by
  cases r with
  | nil => exact absurd rfl hrne
  | node a b d => simp [getSuccessorGo, hw0]

theorem succGo_found_nil (c : Int → Int → Bool) (v : Int) (acc : Option Int) (ph : Bool)
    (l : BTree) (w0 : Int) (hw0 : w0 = v) :
    getSuccessorGo c v acc ph (BTree.node l w0 BTree.nil) =
      (match acc with
       | some a => JSVal.num a
       | none => if ph then JSVal.undef else JSVal.null) := by
  simp [getSuccessorGo, hw0]

theorem succGo_left (c : Int → Int → Bool) (v : Int) (acc : Option Int) (ph : Bool)
    (l : BTree) (w0 : Int) (r : BTree) (hw0 : ¬ w0 = v) (hcv : c v w0 = true) :
    getSuccessorGo c v acc ph (BTree.node l w0 r) = getSuccessorGo c v (some w0) ph l := by
  simp only [getSuccessorGo]
  rw [if_neg hw0, if_pos hcv]

theorem succGo_right (c : Int → Int → Bool) (v : Int) (acc : Option Int) (ph : Bool)
    (l : BTree) (w0 : Int) (r : BTree) (hw0 : ¬ w0 = v) (hcv : c v w0 = false) :
    getSuccessorGo c v acc ph (BTree.node l w0 r) = getSuccessorGo c v acc ph r := by
  simp only [getSuccessorGo]
  rw [if_neg hw0, if_neg (by simp [hcv])]

end Model

namespace Model

theorem predGo_no_below (c : Int → Int → Bool) (hc : StrictTotal c) (v : Int) :
    ∀ t : BTree, IsBST c t → v ∈ inorder t → (∀ x ∈ inorder t, c x v = false) →
      ∀ acc, getPredecessorGo c v acc t = acc := by
  intro t
  induction t with
  | nil => intro _ hv; simp [inorder] at hv
  | node l w0 r ihl ihr =>
    intro hb hv hemp acc
    simp only [IsBST] at hb
    obtain ⟨hbl, hbr, hll, hrr⟩ := hb
    by_cases hw0 : w0 = v
    · cases l with
      | nil => exact predGo_found_nil c v acc w0 r hw0
      | node a b d =>
        exfalso
        have hm := leftmostValue_mem (BTree.node a b d) (by simp)
        have h1 := hll _ hm
        have h2 := hemp _ ((mem_inorder_node _ _ _ _).mpr (Or.inl hm))
        rw [hw0] at h1
        rw [h2] at h1
        exact absurd h1 (by simp)
    · cases hcv : c v w0 with
      | true =>
        rw [predGo_left c v acc l w0 r hw0 hcv]
        have hvl : v ∈ inorder l := by
          rw [mem_inorder_node] at hv
          rcases hv with hv | hv | hv
          · exact hv
          · exact absurd hv.symm hw0
          · rw [hrr v hv] at hcv; exact absurd hcv (by simp)
        exact ihl hbl hvl
          (fun x hx => hemp x ((mem_inorder_node _ _ _ _).mpr (Or.inl hx))) acc
      | false =>
        exfalso
        have h1 : c w0 v = true := by
          rcases hc.total w0 v hw0 with h | h
          · exact h
          · rw [hcv] at h; exact absurd h (by simp)
        rw [hemp w0 ((mem_inorder_node _ _ _ _).mpr (Or.inr (Or.inl rfl)))] at h1
        exact absurd h1 (by simp)

theorem succGo_no_above (c : Int → Int → Bool) (hc : StrictTotal c) (v : Int) :
    ∀ t : BTree, IsBST c t → (inorder t).Nodup → v ∈ inorder t →
      (∀ x ∈ inorder t, c v x = false) → ∀ acc ph,
      getSuccessorGo c v acc ph t =
        (match acc with
         | some a => JSVal.num a
         | none => if ph then JSVal.undef else JSVal.null) := by
  intro t
  induction t with
  | nil => intro _ _ hv; simp [inorder] at hv
  | node l w0 r ihl ihr =>
    intro hb hnd hv hemp acc ph
    simp only [IsBST] at hb
    obtain ⟨hbl, hbr, hll, hrr⟩ := hb
    obtain ⟨hndl, hndr, hw0l, hw0r⟩ := nodup_parts l w0 r hnd
    by_cases hw0 : w0 = v
    · cases hr : r with
      | nil => exact succGo_found_nil c v acc ph l w0 hw0
      | node a b d =>
        exfalso
        have hm : leftmostValue (BTree.node a b d) ∈ inorder r := by
          rw [hr]; exact leftmostValue_mem _ (by simp)
        have h1 := hrr _ hm
        have h2 := hemp _ ((mem_inorder_node _ _ _ _).mpr (Or.inr (Or.inr hm)))
        rw [hw0] at h1
        have h3 := strictTotal_eq_of_not_lt c hc _ _ h1 h2
        rw [h3] at hm
        rw [hw0] at hw0r
        exact hw0r hm
    · cases hcv : c v w0 with
      | true =>
        exfalso
        rw [hemp w0 ((mem_inorder_node _ _ _ _).mpr (Or.inr (Or.inl rfl)))] at hcv
        exact absurd hcv (by simp)
      | false =>
        rw [succGo_right c v acc ph l w0 r hw0 hcv]
        have hvr : v ∈ inorder r := by
          rw [mem_inorder_node] at hv
          rcases hv with hv | hv | hv
          · rw [hll v hv] at hcv; exact absurd hcv (by simp)
          · exact absurd hv.symm hw0
          · exact hv
        exact ihr hbr hndr hvr
          (fun x hx => hemp x ((mem_inorder_node _ _ _ _).mpr (Or.inr (Or.inr hx)))) acc ph

end Model

namespace Model

theorem predGo_below_max (c : Int → Int → Bool) (hc : StrictTotal c) (v w : Int) :
    ∀ t : BTree, IsBST c t → (inorder t).Nodup → v ∈ inorder t → w ∈ inorder t →
      c w v = true → (∀ x ∈ inorder t, c x v = true → c w x = false) →
      ∀ acc, getPredecessorGo c v acc t = some w := by
  intro t
  induction t with
  | nil => intro _ _ hv; simp [inorder] at hv
  | node l w0 r ihl ihr =>
    intro hb hnd hv hw hwv hmax acc
    simp only [IsBST] at hb
    obtain ⟨hbl, hbr, hll, hrr⟩ := hb
    obtain ⟨hndl, hndr, hw0l, hw0r⟩ := nodup_parts l w0 r hnd
    by_cases hw0 : w0 = v
    · have hwne : w ≠ w0 := by
        intro he
        rw [he, hw0] at hwv
        rw [hc.irrefl v] at hwv
        exact absurd hwv (by simp)
      have hwl : w ∈ inorder l := by
        rw [mem_inorder_node] at hw
        rcases hw with h | h | h
        · exact h
        · exact absurd h hwne
        · exfalso
          have h2 := hrr w h
          rw [hw0] at h2
          rw [h2] at hwv
          exact absurd hwv (by simp)
      have hlne : l ≠ BTree.nil := by
        intro he
        rw [he] at hwl
        simp [inorder] at hwl
      have hrm := rightmostValue_mem l hlne
      have h1 : c w (rightmostValue l) = false := by
        apply hmax
        · exact (mem_inorder_node _ _ _ _).mpr (Or.inl hrm)
        · have h3 := hll _ hrm
          rw [hw0] at h3
          exact h3
      have h2 : c (rightmostValue l) w = false := rightmost_max c hc l hbl w hwl
      have heq : rightmostValue l = w := strictTotal_eq_of_not_lt c hc _ _ h2 h1
      rw [predGo_found c v acc l w0 r hw0 hlne, heq]
    · cases hcv : c v w0 with
      | true =>
        rw [predGo_left c v acc l w0 r hw0 hcv]
        have hvl : v ∈ inorder l := by
          rw [mem_inorder_node] at hv
          rcases hv with h | h | h
          · exact h
          · exact absurd h.symm hw0
          · rw [hrr v h] at hcv; exact absurd hcv (by simp)
        have hww0 : c w w0 = true := hc.trans _ _ _ hwv hcv
        have hwl : w ∈ inorder l := by
          rw [mem_inorder_node] at hw
          rcases hw with h | h | h
          · exact h
          · rw [h] at hww0; rw [hc.irrefl w0] at hww0; exact absurd hww0 (by simp)
          · rw [hrr w h] at hww0; exact absurd hww0 (by simp)
        exact ihl hbl hndl hvl hwl hwv
          (fun x hx hxv => hmax x ((mem_inorder_node _ _ _ _).mpr (Or.inl hx)) hxv) acc
      | false =>
        rw [predGo_right c v acc l w0 r hw0 hcv]
        have hw0v : c w0 v = true := by
          rcases hc.total w0 v hw0 with h | h
          · exact h
          · rw [hcv] at h; exact absurd h (by simp)
        have hvr : v ∈ inorder r := by
          rw [mem_inorder_node] at hv
          rcases hv with h | h | h
          · rw [hll v h] at hcv; exact absurd hcv (by simp)
          · exact absurd h.symm hw0
          · exact h
        have hmaxw0 : c w w0 = false :=
          hmax w0 ((mem_inorder_node _ _ _ _).mpr (Or.inr (Or.inl rfl))) hw0v
        rw [mem_inorder_node] at hw
        rcases hw with h | h | h
        · exfalso
          rw [hll w h] at hmaxw0
          exact absurd hmaxw0 (by simp)
        · subst h
          have hbelow : ∀ x ∈ inorder r, c x v = false := by
            intro x hx
            cases hxv : c x v with
            | false => rfl
            | true =>
              have h1 := hmax x ((mem_inorder_node _ _ _ _).mpr (Or.inr (Or.inr hx))) hxv
              have h2 := hrr x hx
              have h3 := strictTotal_eq_of_not_lt c hc x w h2 h1
              rw [h3] at hx
              exact absurd hx hw0r
          exact predGo_no_below c hc v r hbr hvr hbelow (some w)
        · exact ihr hbr hndr hvr h hwv
            (fun x hx hxv => hmax x ((mem_inorder_node _ _ _ _).mpr (Or.inr (Or.inr hx))) hxv)
            (some w0)

theorem succGo_above_min (c : Int → Int → Bool) (hc : StrictTotal c) (v u : Int) :
    ∀ t : BTree, IsBST c t → (inorder t).Nodup → v ∈ inorder t → u ∈ inorder t →
      c v u = true → (∀ x ∈ inorder t, c v x = true → c x u = false) →
      ∀ acc ph, getSuccessorGo c v acc ph t = JSVal.num u := by
  intro t
  induction t with
  | nil => intro _ _ hv; simp [inorder] at hv
  | node l w0 r ihl ihr =>
    intro hb hnd hv hu hvu hmin acc ph
    simp only [IsBST] at hb
    obtain ⟨hbl, hbr, hll, hrr⟩ := hb
    obtain ⟨hndl, hndr, hw0l, hw0r⟩ := nodup_parts l w0 r hnd
    by_cases hw0 : w0 = v
    · have hune : u ≠ w0 := by
        intro he
        rw [he, hw0] at hvu
        rw [hc.irrefl v] at hvu
        exact absurd hvu (by simp)
      have hur : u ∈ inorder r := by
        rw [mem_inorder_node] at hu
        rcases hu with h | h | h
        · exfalso
          have h2 := hll u h
          rw [hw0] at h2
          have h3 := hc.trans _ _ _ hvu h2
          rw [hc.irrefl v] at h3
          exact absurd h3 (by simp)
        · exact absurd h hune
        · exact h
      have hrne : r ≠ BTree.nil := by
        intro he
        rw [he] at hur
        simp [inorder] at hur
      have hlm := leftmostValue_mem r hrne
      have hvlm : c v (leftmostValue r) = true := by
        have h1 := hrr _ hlm
        rw [hw0] at h1
        have hne : leftmostValue r ≠ v := by
          intro he
          rw [he] at hlm
          rw [hw0] at hw0r
          exact hw0r hlm
        rcases hc.total v (leftmostValue r) (fun he => hne he.symm) with h | h
        · exact h
        · rw [h1] at h; exact absurd h (by simp)
      have h1 : c (leftmostValue r) u = false :=
        hmin _ ((mem_inorder_node _ _ _ _).mpr (Or.inr (Or.inr hlm))) hvlm
      have h2 : c u (leftmostValue r) = false := leftmost_min c hc r hbr u hur
      have heq : leftmostValue r = u := strictTotal_eq_of_not_lt c hc _ _ h1 h2
      rw [succGo_found c v acc ph l w0 r hw0 hrne, heq]
    · cases hcv : c v w0 with
      | true =>
        rw [succGo_left c v acc ph l w0 r hw0 hcv]
        have hvl : v ∈ inorder l := by
          rw [mem_inorder_node] at hv
          rcases hv with h | h | h
          · exact h
          · exact absurd h.symm hw0
          · rw [hrr v h] at hcv; exact absurd hcv (by simp)
        have hminw0 : c w0 u = false :=
          hmin w0 ((mem_inorder_node _ _ _ _).mpr (Or.inr (Or.inl rfl))) hcv
        rw [mem_inorder_node] at hu
        rcases hu with h | h | h
        · exact ihl hbl hndl hvl h hvu
            (fun x hx hxv => hmin x ((mem_inorder_node _ _ _ _).mpr (Or.inl hx)) hxv)
            (some w0) ph
        · subst h
          have habove : ∀ x ∈ inorder l, c v x = false := by
            intro x hx
            cases hxv : c v x with
            | false => rfl
            | true =>
              have h1 := hmin x ((mem_inorder_node _ _ _ _).mpr (Or.inl hx)) hxv
              rw [hll x hx] at h1
              exact absurd h1 (by simp)
          exact succGo_no_above c hc v l hbl hndl hvl habove (some u) ph
        · exfalso
          have h2 := hrr u h
          have h3 := strictTotal_eq_of_not_lt c hc u w0 h2 hminw0
          rw [h3] at h
          exact hw0r h
      | false =>
        rw [succGo_right c v acc ph l w0 r hw0 hcv]
        have hvr : v ∈ inorder r := by
          rw [mem_inorder_node] at hv
          rcases hv with h | h | h
          · rw [hll v h] at hcv; exact absurd hcv (by simp)
          · exact absurd h.symm hw0
          · exact h
        have hur : u ∈ inorder r := by
          rw [mem_inorder_node] at hu
          rcases hu with h | h | h
          · exfalso
            have h2 := hc.trans _ _ _ hvu (hll u h)
            rw [h2] at hcv
            exact absurd hcv (by simp)
          · exfalso
            rw [h] at hvu
            rw [hvu] at hcv
            exact absurd hcv (by simp)
          · exact h
        exact ihr hbr hndr hvr hur hvu
          (fun x hx hxv => hmin x ((mem_inorder_node _ _ _ _).mpr (Or.inr (Or.inr hx))) hxv)
          acc ph

end Model

/-- **C9** (confirmed).  On every reachable state whose stored values
are pairwise distinct, under a strict total ordering predicate, for
every present value `v`: if `getPredecessor(v)` is not absent, then
`getSuccessor` of that predecessor returns `v`; and if `getSuccessor(v)`
returns a numeric value, then `getPredecessor` of that successor returns
`v`.  (The claim's "not extremal" proviso is subsumed: for the minimum
the predecessor is absent and for the maximum the successor is
non-numeric, so the conditionals hold vacuously there.) -/
theorem c9_predecessor_successor_duality (c : Int → Int → Bool) (hc : Model.StrictTotal c)
    (ops : List Model.Op)
    (hnd : (Model.inorder (Model.runOps c Model.initState ops).root).Nodup)
    (v : Int) (hv : v ∈ Model.inorder (Model.runOps c Model.initState ops).root) :
    (∀ w, Model.getPredecessorS c (Model.runOps c Model.initState ops) v = some w →
      Model.getSuccessorS c (Model.runOps c Model.initState ops) w = JSVal.num v) ∧
    (∀ u, Model.getSuccessorS c (Model.runOps c Model.initState ops) v = JSVal.num u →
      Model.getPredecessorS c (Model.runOps c Model.initState ops) u = some v) := by
  set s := Model.runOps c Model.initState ops with hs
  have hbst : Model.IsBST c s.root :=
    Model.isBST_runOps c hc ops Model.initState (by simp [Model.initState, Model.IsBST])
  constructor
  · intro w hpred
    by_cases hex : ∃ x ∈ Model.inorder s.root, c x v = true
    · obtain ⟨x0, hx0, hx0v⟩ := hex
      have hne : (Model.inorder s.root).filter (fun x => c x v) ≠ [] := by
        intro he
        have hmem : x0 ∈ (Model.inorder s.root).filter (fun x => c x v) := by
          rw [List.mem_filter]
          exact ⟨hx0, hx0v⟩
        rw [he] at hmem
        simp at hmem
      obtain ⟨m, hm, hmax⟩ := Model.exists_greatest c hc _ hne
      rw [List.mem_filter] at hm
      have hmax2 : ∀ x ∈ Model.inorder s.root, c x v = true → c m x = false := by
        intro x hx hxv
        exact hmax x (by rw [List.mem_filter]; exact ⟨hx, hxv⟩)
      have hpred2 := Model.predGo_below_max c hc v m s.root hbst hnd hv hm.1 hm.2 hmax2 none
      have hw_eq : w = m := by
        have h1 : some m = some w := by
          rw [← hpred2]
          exact hpred
        injection h1 with h2
        exact h2.symm
      subst hw_eq
      have hmin2 : ∀ x ∈ Model.inorder s.root, c w x = true → c x v = false := by
        intro x hx hmx
        cases hxv : c x v with
        | false => rfl
        | true =>
          rw [hmax2 x hx hxv] at hmx
          exact absurd hmx (by simp)
      exact Model.succGo_above_min c hc w v s.root hbst hnd hm.1 hv hm.2 hmin2 none
        s.phantomRoot
    · exfalso
      have hemp : ∀ x ∈ Model.inorder s.root, c x v = false := by
        intro x hx
        cases hxv : c x v with
        | false => rfl
        | true => exact absurd ⟨x, hx, hxv⟩ hex
      have h0 := Model.predGo_no_below c hc v s.root hbst hv hemp none
      rw [Model.getPredecessorS] at hpred
      rw [h0] at hpred
      exact Option.noConfusion hpred
  · intro u hsucc
    by_cases hex : ∃ x ∈ Model.inorder s.root, c v x = true
    · obtain ⟨x0, hx0, hx0v⟩ := hex
      have hne : (Model.inorder s.root).filter (fun x => c v x) ≠ [] := by
        intro he
        have hmem : x0 ∈ (Model.inorder s.root).filter (fun x => c v x) := by
          rw [List.mem_filter]
          exact ⟨hx0, hx0v⟩
        rw [he] at hmem
        simp at hmem
      obtain ⟨m, hm, hmin⟩ := Model.exists_least c hc _ hne
      rw [List.mem_filter] at hm
      have hmin2 : ∀ x ∈ Model.inorder s.root, c v x = true → c x m = false := by
        intro x hx hxv
        exact hmin x (by rw [List.mem_filter]; exact ⟨hx, hxv⟩)
      have hsucc2 := Model.succGo_above_min c hc v m s.root hbst hnd hv hm.1 hm.2 hmin2 none
        s.phantomRoot
      have hu_eq : u = m := by
        have h1 : JSVal.num m = JSVal.num u := by
          rw [← hsucc2]
          exact hsucc
        injection h1 with h2
        exact h2.symm
      subst hu_eq
      have hmax2 : ∀ x ∈ Model.inorder s.root, c x u = true → c v x = false := by
        intro x hx hxu
        cases hxv : c v x with
        | false => rfl
        | true =>
          rw [hmin2 x hx hxv] at hxu
          exact absurd hxu (by simp)
      exact Model.predGo_below_max c hc u v s.root hbst hnd hm.1 hv hm.2 hmax2 none
    · exfalso
      have hemp : ∀ x ∈ Model.inorder s.root, c v x = false := by
        intro x hx
        cases hxv : c v x with
        | false => rfl
        | true => exact absurd ⟨x, hx, hxv⟩ hex
      have h0 := Model.succGo_no_above c hc v s.root hbst hnd hv hemp none s.phantomRoot
      rw [Model.getSuccessorS] at hsucc
      rw [h0] at hsucc
      by_cases hph : s.phantomRoot = true
      · simp [hph] at hsucc
      · simp [hph] at hsucc

/-- Witness for C9 at a concrete input: the tree built by inserting
`[2, 1, 3]` under the default ordering, probed at `v = 2`. -/
theorem c9_predecessor_successor_duality_witness :
    Model.getPredecessorS Model.ltInt (Model.runOps Model.ltInt Model.initState
      [Model.Op.ins 2, Model.Op.ins 1, Model.Op.ins 3]) 2 = some 1 ∧
    Model.getSuccessorS Model.ltInt (Model.runOps Model.ltInt Model.initState
      [Model.Op.ins 2, Model.Op.ins 1, Model.Op.ins 3]) 1 = JSVal.num 2 :=
  ⟨by decide,
    (c9_predecessor_successor_duality Model.ltInt strictTotal_ltInt
      [Model.Op.ins 2, Model.Op.ins 1, Model.Op.ins 3] (by decide) 2 (by decide)).1 1
      (by decide)⟩
